import Mathlib

/-!
# Verification of pyAFQ streamline segmentation (`AFQ/segmentation.py`)

A shallow embedding of the segmentation core of pyAFQ:

* `gaussian_weights` (per-node Mahalanobis statistics over a bundle),
* `clean_fiber_group` (iterative Mahalanobis outlier removal),
* `Segment.segment_sls` (probability / midline / ROI gating, exclusive bundle
  assignment and orientation normalization),
* the probability-map default of `Segment.create_prob`.

Conventions of the embedding:

* Floating point numbers are modelled by exact rationals.  So that closed
  runs of the embedded functions can be checked by kernel reduction, the
  rationals are represented by raw numerator/denominator pairs `Q` with
  textbook fraction arithmetic (`Rat`'s operations do not reduce in the
  kernel).  Fractions are not reduced; every operation keeps the
  denominator positive provided divisors are nonzero, which the embedded
  code guards exactly where the source does (`np.linalg.inv` raising on a
  singular matrix); comparisons assume positive denominators.  `Q.toRat`
  interprets a `Q` as a `ℚ`.
* `scipy.spatial.distance.mahalanobis u v VI` computes `sqrt (d ⬝ (VI d))`
  with `d = u - v`.  The code only ever compares these distances with a
  nonnegative threshold `t`, and `sqrt q > t ↔ q > t ^ 2` (for `q ≥ 0`,
  `t ≥ 0`), so distances are represented throughout by their *squares* and
  thresholds are squared at each comparison site.  A negative quadratic form
  (possible, because the code zeroes the lower triangle of the covariance
  before inverting, making it asymmetric) makes `np.sqrt` return NaN; NaN is
  represented by `Option.none`, and the comparisons `none < t`, `none > t`
  are `false`, exactly as NaN comparisons are in numpy.
* Fallible numpy/python operations (`np.linalg.inv` on a singular matrix,
  `np.min` of an empty array, list indexing, attribute access) are modelled
  with `Option`/`Except`: `none`/`.error` is a raised exception.
* The external dipy capabilities used by the code (`set_number_of_points`,
  `values_from_volume`) are not part of this repository; they enter the
  embedding as an opaque `Ops` record, instantiated in concrete runs with
  functions that agree with dipy on the inputs used there (constant volumes,
  streamlines already sampled at the requested number of points).
-/

set_option linter.unusedVariables false

namespace AFQSeg

/-! ## Exact fraction arithmetic -/

/-- An exact rational as an unnormalized fraction.  Well-formed values have
    a positive denominator (`Q.Wf`); all operations preserve this as long as
    divisors are nonzero. -/
structure Q where
  num : Int
  den : Int
deriving DecidableEq, Repr

instance : Inhabited Q := ⟨⟨0, 1⟩⟩

instance (n : ℕ) : OfNat Q n := ⟨⟨n, 1⟩⟩

instance : NatCast Q := ⟨fun n => ⟨n, 1⟩⟩

/-- Build a fraction, moving the divisor's sign to the numerator so that the
    denominator stays nonnegative. -/
def mkQ (n d : Int) : Q := if d < 0 then ⟨-n, -d⟩ else ⟨n, d⟩

instance : Neg Q := ⟨fun a => ⟨-a.num, a.den⟩⟩
instance : Add Q := ⟨fun a b => ⟨a.num * b.den + b.num * a.den, a.den * b.den⟩⟩
instance : Sub Q := ⟨fun a b => ⟨a.num * b.den - b.num * a.den, a.den * b.den⟩⟩
instance : Mul Q := ⟨fun a b => ⟨a.num * b.num, a.den * b.den⟩⟩
instance : Div Q := ⟨fun a b => mkQ (a.num * b.den) (a.den * b.num)⟩

/-- Value comparison of well-formed fractions (positive denominators):
    `a/b < c/d ↔ a * d < c * b`. -/
instance : LT Q := ⟨fun a b => a.num * b.den < b.num * a.den⟩

/-- Value comparison of well-formed fractions (positive denominators). -/
instance : LE Q := ⟨fun a b => a.num * b.den ≤ b.num * a.den⟩

instance : DecidableRel (α := Q) (· < ·) := fun a b => Int.decLt _ _
instance : DecidableRel (α := Q) (· ≤ ·) := fun a b => Int.decLe _ _

instance : Min Q := ⟨fun a b => if a ≤ b then a else b⟩

/-- Value-level test for zero (correct whenever the denominator is
    nonzero); this is the Python `== 0` comparison. -/
def Q.isZero (a : Q) : Bool := a.num == 0

/-- Well-formedness: the denominator is positive. -/
def Q.Wf (a : Q) : Prop := 0 < a.den

instance (a : Q) : Decidable a.Wf := Int.decLt _ _

/-- The rational value of a fraction. -/
def Q.toRat (a : Q) : ℚ := (a.num : ℚ) / (a.den : ℚ)

/-! ## Geometry: points, matrices, distances -/

/-- A 3D point. -/
structure Vec3 where
  x : Q
  y : Q
  z : Q
deriving DecidableEq, Repr

instance : Inhabited Vec3 := ⟨⟨0, 0, 0⟩⟩

/-- Pointwise difference of 3D points. -/
def Vec3.sub (a b : Vec3) : Vec3 := ⟨a.x - b.x, a.y - b.y, a.z - b.z⟩

/-- Euclidean dot product on `Vec3`. -/
def Vec3.dot (a b : Vec3) : Q := a.x * b.x + a.y * b.y + a.z * b.z

/-- Squared Euclidean distance between two points (the `sqeuclidean` metric
    of `scipy.spatial.distance.cdist`). -/
def sqDist (a b : Vec3) : Q := (Vec3.sub a b).dot (Vec3.sub a b)

/-- A streamline: an ordered list of 3D points. -/
abbrev Streamline := List Vec3

/-- A 3×3 matrix, stored by rows. -/
structure Mat3 where
  r0 : Vec3
  r1 : Vec3
  r2 : Vec3
deriving DecidableEq, Repr

instance : Inhabited Mat3 := ⟨⟨default, default, default⟩⟩

/-- Matrix–vector product. -/
def Mat3.mulVec (m : Mat3) (v : Vec3) : Vec3 :=
  ⟨m.r0.dot v, m.r1.dot v, m.r2.dot v⟩

/-! ## `gaussian_weights`: per-node Mahalanobis statistics -/

/-- `np.mean(l)`: the arithmetic mean of a list (the empty list is
    degenerate in numpy — NaN — and is never reached in the verified
    paths). -/
def mean (l : List Q) : Q := l.sum / (l.length : Q)

/-- Insert into a sorted list (ascending). -/
def insertSorted (a : Q) : List Q → List Q
  | [] => [a]
  | b :: bs => if a ≤ b then a :: b :: bs else b :: insertSorted a bs

/-- Insertion sort, ascending. -/
def sortQ (l : List Q) : List Q := l.foldr insertSorted []

/-- `np.median(l)`: middle element of the sorted list for odd length, the
    average of the two middle elements for even length. -/
def median (l : List Q) : Q :=
  let s := sortQ l
  let n := s.length
  if n % 2 = 1 then s.getD (n / 2) 0
  else (s.getD (n / 2 - 1) 0 + s.getD (n / 2) 0) / 2

/-- Apply a per-axis statistic (`np.mean` / `np.median` with `axis=0`) to a
    list of 3D points, the per-node coordinates across streamlines. -/
def statVec (stat : List Q → Q) (coords : List Vec3) : Vec3 :=
  ⟨stat (coords.map Vec3.x), stat (coords.map Vec3.y), stat (coords.map Vec3.z)⟩

/-- One entry of `np.cov(node_coords.T, ddof=0)`: the population covariance
    of two coordinate projections. -/
def covEntry (coords : List Vec3) (f g : Vec3 → Q) : Q :=
  let mf := mean (coords.map f)
  let mg := mean (coords.map g)
  (coords.map (fun c => (f c - mf) * (g c - mg))).sum / (coords.length : Q)

/-- The zeroed-lower-triangle covariance matrix that `gaussian_weights`
    builds from `np.cov` before inverting:
    `[[cxx, cxy, cxz], [0, cyy, cyz], [0, 0, czz]]`. -/
def covZeroed (coords : List Vec3) : Mat3 :=
  ⟨⟨covEntry coords Vec3.x Vec3.x, covEntry coords Vec3.x Vec3.y, covEntry coords Vec3.x Vec3.z⟩,
   ⟨0, covEntry coords Vec3.y Vec3.y, covEntry coords Vec3.y Vec3.z⟩,
   ⟨0, 0, covEntry coords Vec3.z Vec3.z⟩⟩

/-- `np.linalg.inv` on the upper-triangular matrix produced by `covZeroed`.
    An upper-triangular matrix is invertible iff its diagonal is nonzero,
    and its inverse is the upper-triangular matrix below (matrix inverses
    are unique, so this is exactly what `np.linalg.inv` returns); a zero on
    the diagonal is numpy's `LinAlgError`, modelled as `none`. -/
def invUpper (m : Mat3) : Option Mat3 :=
  let a := m.r0.x; let b := m.r0.y; let c := m.r0.z
  let d := m.r1.y; let e := m.r1.z
  let f := m.r2.z
  if a.isZero || d.isZero || f.isZero then none
  else some ⟨⟨1 / a, -b / (a * d), (b * e - c * d) / (a * d * f)⟩,
             ⟨0, 1 / d, -e / (d * f)⟩,
             ⟨0, 0, 1 / f⟩⟩

/-- The squared Mahalanobis distance `d ⬝ (VI d)`, `d = u - v`, i.e. the
    square of `scipy.spatial.distance.mahalanobis u v VI`.  A negative
    quadratic form (possible since `VI` is not symmetric positive-definite
    here) makes the distance (a square root) NaN: modelled as `none`. -/
def mahalSq (u v : Vec3) (vi : Mat3) : Option Q :=
  let d := Vec3.sub u v
  let q := d.dot (vi.mulVec d)
  if q < 0 then none else some q

/-- Per-node data of `gaussian_weights`: the inverse of the zeroed
    covariance of this node's coordinates across streamlines, and the
    per-node statistic (`stat(node_coords, 0)`).  `none` is `np.linalg.inv`
    raising. -/
def nodeVI (bundle : List Streamline) (stat : List Q → Q) (node : ℕ) :
    Option (Mat3 × Vec3) :=
  let coords := bundle.map (fun sl => sl.getD node default)
  (invUpper (covZeroed coords)).map (fun vi => (vi, statVec stat coords))

/-- Sequence a list of options: `none` iff some element is `none`. -/
def seqOption : List (Option α) → Option (List α)
  | [] => some []
  | o :: os => match o, seqOption os with
    | some a, some as => some (a :: as)
    | _, _ => none

/-- Number of node positions of a resampled bundle (`bundle.shape[1]`). -/
def nPointsOf (bundle : List Streamline) : ℕ := (bundle.headD []).length

/-- `gaussian_weights(bundle, return_mahalnobis=True, stat=stat)`, with
    distances represented by their squares (see the file header): the
    `(n_streamlines, n_points)` matrix `w` of squared Mahalanobis distances
    of each streamline's node from the per-node statistic.  Entry `none` is
    a NaN distance; result `none` is a raised `LinAlgError` (singular
    covariance at some node).  A single-streamline bundle returns the
    one-element NaN array `np.array([np.nan])`. -/
def mahalSqMatrix (bundle : List Streamline) (stat : List Q → Q) :
    Option (List (List (Option Q))) :=
  if bundle.length = 1 then some [[none]]
  else
    let p := nPointsOf bundle
    match seqOption ((List.range p).map (nodeVI bundle stat)) with
    | none => none
    | some vis =>
        some (bundle.map (fun sl =>
          (List.range p).map (fun node =>
            let vim := vis.getD node default
            mahalSq (sl.getD node default) vim.2 vim.1)))

/-! ## `clean_fiber_group` -/

/-- `w > t` for a squared-represented distance `w` and threshold `t ≥ 0`:
    `sqrt q > t ↔ q > t * t`; NaN (`none`) compares `false`. -/
def sqGtThr (w : Option Q) (t : Q) : Bool :=
  match w with
  | none => false
  | some q => decide (t * t < q)

/-- `w < t` for a squared-represented distance `w` and threshold `t ≥ 0`;
    NaN (`none`) compares `false`. -/
def sqLtThr (w : Option Q) (t : Q) : Bool :=
  match w with
  | none => false
  | some q => decide (q < t * t)

/-- `np.any(w > clean_threshold)` over the distance matrix. -/
def anyGt (w : List (List (Option Q))) (t : Q) : Bool :=
  w.any (fun row => row.any (fun e => sqGtThr e t))

/-- `np.where(np.all(w < clean_threshold, axis=-1))[0]`: the (ascending)
    indices of the streamlines whose distance is below the threshold at
    every node. -/
def keepIndices (w : List (List (Option Q))) (t : Q) : List ℕ :=
  (List.range w.length).filter (fun fn => (w.getD fn []).all (fun e => sqLtThr e t))

/-- numpy fancy indexing `xs[idx]` for a list of indices. -/
def gather (xs : List α) [Inhabited α] (idx : List ℕ) : List α :=
  idx.map (fun i => xs.getD i default)

/-- A scalar volume: a shape and flattened voxel data.  Only used through
    the opaque sampling capability and for the probability-map default. -/
structure Volume where
  shape : List ℕ
  data : List Q
deriving DecidableEq, Repr

/-- The external dipy capabilities consumed by the segmentation code; they
    live outside this repository and enter the embedding opaquely.
    `setNumberOfPoints sl n` is `dipy...set_number_of_points` (arc-length
    uniform resampling to `n` points); `valuesFromVolume vol arr` is
    `dipy...values_from_volume` (per-node trilinear sampling of `vol`, one
    list of values per streamline of `arr`). -/
structure Ops where
  setNumberOfPoints : Streamline → ℕ → Streamline
  valuesFromVolume : Volume → List Streamline → List (List Q)

/-- `_resample_bundle(streamlines, n_points)`: resample every streamline of
    the bundle to `n` points using the external dipy capability. -/
def resampleBundle (ops : Ops) (streamlines : List Streamline) (n : ℕ) :
    List Streamline :=
  streamlines.map (fun sl => ops.setNumberOfPoints sl n)

/-- The `while` loop of `clean_fiber_group`, by recursion on the remaining
    round budget (`clean_rounds - rounds_elapsed`).  The third conjunct of
    the loop guard is `len(streamlines) > min_sl` where `streamlines` is the
    *original input*, never reassigned inside the loop, so `nOrig` is the
    constant original streamline count.  Each round keeps the streamlines
    whose distance is below the threshold at every node, then recomputes the
    Mahalanobis matrix on the survivors with `gaussian_weights(fgarray,
    return_mahalnobis=True)` — the `stat` argument is *not* passed, so the
    recomputation uses the default `np.mean`.  `none` is a raised
    `LinAlgError`. -/
def cleanLoop (t : Q) (minSl nOrig : ℕ) :
    ℕ → List (List (Option Q)) → List ℕ → List Streamline → Option (List ℕ)
  | 0, _, idx, _ => some idx
  | roundsLeft + 1, w, idx, fg =>
    if anyGt w t ∧ minSl < nOrig then
      let keep := keepIndices w t
      let idx2 := gather idx keep
      let fg2 := gather fg keep
      match mahalSqMatrix fg2 mean with
      | none => none
      | some w2 => cleanLoop t minSl nOrig roundsLeft w2 idx2 fg2
    else some idx

/-- `clean_fiber_group(streamlines, n_points, clean_rounds, clean_threshold,
    min_sl, stat)`: return the input unchanged when it has fewer than
    `min_sl` streamlines; otherwise resample once, compute the Mahalanobis
    matrix with the caller's `stat`, run up to `clean_rounds` cleaning
    rounds, and return the original streamlines at the surviving indices.
    `none` is a raised `LinAlgError`. -/
def cleanFiberGroup (ops : Ops) (streamlines : List Streamline)
    (nPoints cleanRounds : ℕ) (t : Q) (minSl : ℕ) (stat : List Q → Q) :
    Option (List Streamline) :=
  if streamlines.length < minSl then some streamlines
  else
    let fgarray := resampleBundle ops streamlines nPoints
    let idx := List.range fgarray.length
    match mahalSqMatrix fgarray stat with
    | none => none
    | some w =>
      (cleanLoop t minSl streamlines.length cleanRounds w idx fgarray).map
        (gather streamlines)

/-- Modelled from the spec: the variant of `clean_fiber_group`'s loop in
    which the per-round recomputation uses the caller's chosen statistic
    ("compute per-node Mahalanobis distances … the chosen central statistic
    (mean or median)", "must recompute statistics from scratch each round"),
    i.e. the in-loop `gaussian_weights` call is also passed `stat=stat`.
    It differs from `cleanLoop` only in that one argument. -/
def cleanLoopWithStat (t : Q) (minSl nOrig : ℕ) (stat : List Q → Q) :
    ℕ → List (List (Option Q)) → List ℕ → List Streamline → Option (List ℕ)
  | 0, _, idx, _ => some idx
  | roundsLeft + 1, w, idx, fg =>
    if anyGt w t ∧ minSl < nOrig then
      let keep := keepIndices w t
      let idx2 := gather idx keep
      let fg2 := gather fg keep
      match mahalSqMatrix fg2 stat with
      | none => none
      | some w2 => cleanLoopWithStat t minSl nOrig stat roundsLeft w2 idx2 fg2
    else some idx

/-- Modelled from the spec: `clean_fiber_group` with the spec's per-round
    statistic recomputation (see `cleanLoopWithStat`). -/
def cleanFiberGroupWithStat (ops : Ops) (streamlines : List Streamline)
    (nPoints cleanRounds : ℕ) (t : Q) (minSl : ℕ) (stat : List Q → Q) :
    Option (List Streamline) :=
  if streamlines.length < minSl then some streamlines
  else
    let fgarray := resampleBundle ops streamlines nPoints
    let idx := List.range fgarray.length
    match mahalSqMatrix fgarray stat with
    | none => none
    | some w =>
      (cleanLoopWithStat t minSl streamlines.length stat cleanRounds w idx fgarray).map
        (gather streamlines)

/-! ## `Segment.segment_sls` -/

/-- Python exceptions that `segment_sls` can raise in the modelled paths. -/
inductive PyErr where
  | attributeError
  | indexError
  | valueError
deriving DecidableEq, Repr

/-- One bundle of `self.bundle_dict` as `segment_sls` consumes it, with the
    warped ROI coordinate sets prepared by `create_prob`
    (`self.include_rois[b]`, `self.exclude_rois[b]`), the bundle's
    `cross_midline` field and its warped probability map. -/
structure BundleSeg where
  name : String
  includeRois : List (List Vec3)
  excludeRois : List (List Vec3)
  crossMidline : Option Bool
  probMap : Volume
deriving Repr

/-- The state `segment_sls` reads: `self.streamlines`, `self.crosses`
    (`none` when `split_sls` never ran, so the attribute does not exist),
    the bundles, the squared corner tolerance `tol =
    dist_to_corner(affine)**2` and the probability threshold. -/
structure SegInput where
  streamlines : List Streamline
  crosses : Option (List Bool)
  bundles : List BundleSeg
  tol : Q
  probThreshold : Q

/-- `scipy.spatial.distance.cdist(sl, roi, 'sqeuclidean')`: the matrix of
    squared distances, one row per streamline point, one column per ROI
    coordinate. -/
def cdistSq (sl : Streamline) (roi : List Vec3) : List (List Q) :=
  sl.map (fun p => roi.map (fun r => sqDist p r))

/-- `np.min` over all entries of a matrix; `none` models the `ValueError`
    numpy raises on an empty array. -/
def matMin : List (List Q) → Option Q
  | [] => none
  | row :: rest =>
    match row.min?, matMin rest with
    | none, r => r
    | some m, none => some m
    | some m, some r => some (min m r)

/-- `np.argmin(l)`: index of the first occurrence of the minimum;
    `none` on the empty list (a numpy `ValueError`). -/
def argminFirst : List Q → Option ℕ
  | [] => none
  | a :: as =>
    match argminFirst as with
    | none => some 0
    | some j => if as.getD j 0 < a then some (j + 1) else some 0

/-- `np.argmax(l)`: index of the first occurrence of the maximum;
    `none` on the empty list. -/
def argmaxFirst : List Q → Option ℕ
  | [] => none
  | a :: as =>
    match argmaxFirst as with
    | none => some 0
    | some j => if a < as.getD j 0 then some (j + 1) else some 0

/-- Column `0` of a distance matrix: the distance of every streamline point
    to the first ROI coordinate.  `np.argmin(dist, 0)[0]` is the first index
    of the minimum of this column. -/
def col0 (m : List (List Q)) : List Q := m.filterMap List.head?

/-- `_check_sl_with_inclusion(sl, include_rois, tol)`: walk the inclusion
    ROIs accumulating the `cdist` matrices; if the minimum distance to some
    ROI exceeds the tolerance, return `(False, [])` at once; otherwise
    `(True, dist)`.  An empty ROI list is vacuously satisfied.  `.error` is
    the `ValueError` of `np.min` on an empty distance matrix. -/
def checkInclusion (sl : Streamline) (rois : List (List Vec3)) (tol : Q) :
    Except PyErr (Bool × List (List (List Q))) :=
  match rois with
  | [] => .ok (true, [])
  | roi :: rest =>
    let d := cdistSq sl roi
    match matMin d with
    | none => .error .valueError
    | some mn =>
      if tol < mn then .ok (false, [])
      else
        match checkInclusion sl rest tol with
        | .error e => .error e
        | .ok (false, _) => .ok (false, [])
        | .ok (true, ds) => .ok (true, d :: ds)

/-- `_check_sl_with_exclusion(sl, exclude_rois, tol)`: `False` as soon as
    the minimum distance to some exclusion ROI is below the tolerance;
    an empty ROI list is vacuously satisfied. -/
def checkExclusion (sl : Streamline) (rois : List (List Vec3)) (tol : Q) :
    Except PyErr Bool :=
  match rois with
  | [] => .ok true
  | roi :: rest =>
    match matMin (cdistSq sl roi) with
    | none => .error .valueError
    | some mn =>
      if mn < tol then .ok false
      else checkExclusion sl rest tol

/-- The midline gate of `segment_sls` (lines 460–472).  When the bundle's
    `cross_midline` is constrained the code reads `self.crosses[sl_idx]`
    inside `try/except NameError`: a missing `crosses` attribute raises
    `AttributeError`, which the handler does *not* catch.  A streamline that
    crosses is kept only if the rule is truthy (`continue` otherwise); a
    streamline that does not cross always falls through and is kept. -/
def midlinePass (crossMidline : Option Bool) (crossesOpt : Option (List Bool))
    (slIdx : ℕ) : Except PyErr Bool :=
  match crossMidline with
  | none => .ok true
  | some rule =>
    match crossesOpt with
    | none => .error .attributeError
    | some arr =>
      match arr.get? slIdx with
      | none => .error .indexError
      | some c => .ok (if c then rule else true)

/-- The body of the `for sl_idx, sl in enumerate(streamlines)` loop of
    `segment_sls` for one (streamline, bundle) pair: probability gate,
    midline gate, inclusion test, exclusion test, then the closest-approach
    bookkeeping `np.argmin(dist[0], 0)[0]` / `np.argmin(dist[1], 0)[0]`
    (an `IndexError` when there are fewer than two inclusion ROIs) and the
    score `fiber_probabilities[sl_idx]`.  `.ok none` is a rejection. -/
def classifyPair (tol probThr : Q) (crossesOpt : Option (List Bool))
    (crossMidline : Option Bool) (fiberProb : Q) (slIdx : ℕ) (sl : Streamline)
    (incl excl : List (List Vec3)) : Except PyErr (Option (Q × ℕ × ℕ)) :=
  if probThr < fiberProb then
    match midlinePass crossMidline crossesOpt slIdx with
    | .error e => .error e
    | .ok false => .ok none
    | .ok true =>
      match checkInclusion sl incl tol with
      | .error e => .error e
      | .ok (false, _) => .ok none
      | .ok (true, dist) =>
        match checkExclusion sl excl tol with
        | .error e => .error e
        | .ok false => .ok none
        | .ok true =>
          match dist.get? 0 with
          | none => .error .indexError
          | some d0 =>
            match argminFirst (col0 d0) with
            | none => .error .valueError
            | some m0 =>
              match dist.get? 1 with
              | none => .error .indexError
              | some d1 =>
                match argminFirst (col0 d1) with
                | none => .error .valueError
                | some m1 => .ok (some (fiberProb, m0, m1))
  else .ok none

/-- Error-propagating map over a list, first error wins (the order Python
    raises in). -/
def mapE (f : α → Except ε β) : List α → Except ε (List β)
  | [] => .ok []
  | a :: as =>
    match f a with
    | .error e => .error e
    | .ok b =>
      match mapE f as with
      | .error e => .error e
      | .ok bs => .ok (b :: bs)

/-- `enumerate`, starting at `i`. -/
def withIdx : List α → ℕ → List (ℕ × α)
  | [], _ => []
  | a :: as, i => (i, a) :: withIdx as (i + 1)

/-- The per-streamline averaged probabilities for one bundle:
    `np.mean(values_from_volume(warped_prob_map, fgarray), -1)` where
    `fgarray` is the 100-point resampling of the streamlines. -/
def fiberProbs (ops : Ops) (streamlines : List Streamline) (b : BundleSeg) :
    List Q :=
  (ops.valuesFromVolume b.probMap (resampleBundle ops streamlines 100)).map mean

/-- The first phase of `segment_sls`: the bundle-major table of per-pair
    classification results (`streamlines_in_bundles` and `min_dist_coords`
    together: `none` cells hold score `0`). -/
def phase1 (ops : Ops) (inp : SegInput) :
    Except PyErr (List (List (Option (Q × ℕ × ℕ)))) :=
  mapE
    (fun b =>
      let probs := fiberProbs ops inp.streamlines b
      mapE
        (fun p =>
          classifyPair inp.tol inp.probThreshold inp.crosses b.crossMidline
            (probs.getD p.1 0) p.1 p.2 b.includeRois b.excludeRois)
        (withIdx inp.streamlines 0))
    inp.bundles

/-- Row `slIdx` of `streamlines_in_bundles`: the per-bundle scores of one
    streamline (zero where rejected). -/
def scoreRow (table : List (List (Option (Q × ℕ × ℕ)))) (nBundles slIdx : ℕ) :
    List Q :=
  (List.range nBundles).map
    (fun b => (((table.getD b []).getD slIdx none).map (·.1)).getD 0)

/-- The stored `min_dist_coords[slIdx, bIdx]` pair (zeros where the
    streamline was not accepted for the bundle). -/
def minPair (table : List (List (Option (Q × ℕ × ℕ)))) (bIdx slIdx : ℕ) :
    ℕ × ℕ :=
  (((table.getD bIdx []).getD slIdx none).map (·.2)).getD (0, 0)

/-- `Segment.segment_sls`: classify every streamline against every bundle,
    drop streamlines with zero score everywhere, assign each survivor to its
    maximal-score bundle (`np.argmax`, first maximum wins), and orient every
    selected streamline by reversing it when its stored closest-approach
    index for inclusion-ROI 0 exceeds the one for inclusion-ROI 1.  The
    result maps each bundle name to its fiber group (possibly empty). -/
def segmentSls (ops : Ops) (inp : SegInput) :
    Except PyErr (List (String × List Streamline)) :=
  match phase1 ops inp with
  | .error e => .error e
  | .ok table =>
    let nB := inp.bundles.length
    let surv := (withIdx inp.streamlines 0).filter
      (fun p => decide (0 < (scoreRow table nB p.1).sum))
    .ok ((withIdx inp.bundles 0).map (fun q =>
      let sel := surv.filter
        (fun p => decide (argmaxFirst (scoreRow table nB p.1) = some q.1))
      (q.2.name, sel.map (fun p =>
        let mp := minPair table q.1 p.1
        if mp.2 < mp.1 then p.2.reverse else p.2))))

/-- The closest-approach node index the code records for one ROI:
    `np.argmin(cdist(sl, roi, 'sqeuclidean'), 0)[0]`, the first node index
    minimizing the squared distance to the ROI's first coordinate. -/
def closestApproachIdx (sl : Streamline) (roi : List Vec3) : Option ℕ :=
  argminFirst (col0 (cdistSq sl roi))

/-! ## `Segment.create_prob`: the probability-map default -/

/-- One raw entry of `bundle_dict` as `create_prob` reads it. -/
structure BundleSpecRaw where
  rois : List Volume
  rules : List Bool
  probMap : Option Volume
  crossMidline : Option Bool

/-- `np.ones(shape)`. -/
def npOnes (shape : List ℕ) : Volume :=
  ⟨shape, List.replicate (shape.foldr (· * ·) 1) 1⟩

/-- The value of the loop variable `roi` after the
    `for rule_idx, rule in enumerate(rules)` loop of `create_prob`: `roi` is
    rebound to `ROIs[rule_idx]` on every iteration, so afterwards it holds
    the ROI of the *last* rule, `ROIs[len(rules) - 1]`.  `none` models the
    two failure modes: an empty rules list (`roi` is never bound, a
    `NameError` at `np.ones(roi.shape)`) and a rules list longer than the
    ROI list (an `IndexError` inside the loop; the loop indices are
    increasing, so the loop raises iff `ROIs[len(rules) - 1]` is out of
    range). -/
def roiAfterRulesLoop (spec : BundleSpecRaw) : Option Volume :=
  match spec.rules.length with
  | 0 => none
  | n + 1 => spec.rois.get? n

/-- The probability map `create_prob` settles on before warping it:
    `self.bundle_dict[bundle].get('prob_map', np.ones(roi.shape))` with
    `roi` the leaked rules-loop variable. -/
def chosenProbMap (spec : BundleSpecRaw) : Option Volume :=
  (roiAfterRulesLoop spec).map (fun roi => spec.probMap.getD (npOnes roi.shape))

/-! ## Concrete instances for closed runs -/

/-- A point on the diagonal line, used by the cleaner runs. -/
def linePt (a : Q) : Vec3 := ⟨a, a, a⟩

/-- A two-point streamline along the diagonal starting at `(a, a, a)`:
    its two points are already an exact arc-length-uniform sampling with
    two nodes, so `set_number_of_points (lineSl a) 2 = lineSl a`. -/
def lineSl (a : Q) : Streamline := [linePt a, linePt (a + 1)]

/-- A concrete instance of the external dipy capabilities for the closed
    runs below: resampling leaves the streamline unchanged and sampling
    reads the volume's first voxel.  This agrees with dipy on every input it
    is applied to here: the cleaner runs resample two-point streamlines to
    `n_points = 2` (where `set_number_of_points` is the identity), and the
    probability volumes below are constant, where trilinear sampling returns
    that constant at every node regardless of the node count, so the
    per-streamline mean probability is that constant either way. -/
def opsSimple : Ops where
  setNumberOfPoints := fun sl _ => sl
  valuesFromVolume := fun v arr => arr.map (fun sl => sl.map (fun _ => v.data.headD 0))

/-- The all-ones probability volume of shape `[2, 2, 2]`. -/
def onesVol : Volume := npOnes [2, 2, 2]

/-- The all-zero probability volume of shape `[2, 2, 2]`. -/
def zeroVol : Volume := ⟨[2, 2, 2], List.replicate 8 0⟩

/-- The streamline of the orientation runs: a symmetric three-point arc. -/
def slArc : Streamline := [⟨0, 0, 0⟩, ⟨1, 1, 0⟩, ⟨2, 0, 0⟩]

/-- Inclusion ROI 0 of the orientation runs: the single coordinate at the
    arc's middle point; the closest approach of `slArc` to it is uniquely at
    node 1. -/
def roiA : List Vec3 := [⟨1, 1, 0⟩]

/-- Inclusion ROI 1 of the orientation runs: a single coordinate equidistant
    from the arc's two endpoints (squared distance 2) and farther from its
    middle (squared distance 4): the closest approach is *tied* between
    nodes 0 and 2. -/
def roiB : List Vec3 := [⟨1, -1, 0⟩]

/-- Input for the C2 cleaner run: five diagonal streamlines at offsets
    `0, 3, 4, 5, 12`. -/
def c2data : List Streamline := [lineSl 0, lineSl 3, lineSl 4, lineSl 5, lineSl 12]

/-- Input for the C6 cleaner run: five diagonal streamlines at offsets
    `0, 1, 2, 5, 9`. -/
def c6data : List Streamline := [lineSl 0, lineSl 1, lineSl 2, lineSl 5, lineSl 9]

/-! ## The weight mode of `gaussian_weights` (real-valued) -/

/-- Entry `(fn, node)` of the squared Mahalanobis matrix. -/
def mahalSqEntryAt (bundle : List Streamline) (stat : List Q → Q)
    (fn node : ℕ) : Option Q :=
  match mahalSqMatrix bundle stat with
  | none => none
  | some w => (w.getD fn []).getD node none

/-- The real-valued Mahalanobis distance `w[fn, node]` of
    `gaussian_weights`: the square root of the stored square (`0` in the
    degenerate NaN/error cases, which the theorems' hypotheses exclude). -/
noncomputable def mahalReal (bundle : List Streamline) (stat : List Q → Q)
    (fn node : ℕ) : ℝ :=
  match mahalSqEntryAt bundle stat fn node with
  | none => 0
  | some q => Real.sqrt q.toRat

/-- `gaussian_weights(bundle, return_mahalnobis=False, stat=stat)`: the
    single-streamline bundle gets the entire weighting (`np.array([1])`);
    otherwise the weights are the inverse distances `w = 1 / w` normalized
    per node so that each node's weights sum to one across streamlines,
    `w / np.sum(w, 0)`. -/
noncomputable def gaussianWeights (bundle : List Streamline) (stat : List Q → Q)
    (fn node : ℕ) : ℝ :=
  if bundle.length = 1 then 1
  else
    (mahalReal bundle stat fn node)⁻¹ /
      ∑ fm ∈ Finset.range bundle.length, (mahalReal bundle stat fm node)⁻¹

/-! ## Remaining definitions used by the theorems -/

/-- `l` has a strict unique minimum at index `i` (so "the" closest-approach
    node index is unambiguous). -/
def IsStrictMinAt (l : List Q) (i : ℕ) : Prop :=
  i < l.length ∧ ∀ j < l.length, j ≠ i → l.getD i 0 < l.getD j 0

instance (l : List Q) (i : ℕ) : Decidable (IsStrictMinAt l i) :=
  inferInstanceAs (Decidable (_ ∧ _))

/-- Input of the C1 counterexample: one bundle whose rule says the
    streamline *must* cross the midline (`cross_midline=True`), and one
    streamline classified as *not* crossing (`self.crosses = [False]`),
    passing every other gate. -/
def inpC1 : SegInput :=
  ⟨[slArc], some [false], [⟨"b", [roiA, roiB], [], some true, onesVol⟩], 10, 0⟩

/-- Input of the C3 counterexample: one bundle with an *empty* inclusion
    ROI list, one streamline passing the probability gate. -/
def inpC3 : SegInput :=
  ⟨[slArc], none, [⟨"b", [], [], none, onesVol⟩], 10, 0⟩

/-- Input of the C4 counterexample: the arc against the two single-point
    ROIs; the distance profile to `roiB`'s coordinate is tied between nodes
    0 and 2. -/
def inpC4 : SegInput :=
  ⟨[slArc], none, [⟨"b", [roiA, roiB], [], none, onesVol⟩], 10, 0⟩

/-- Inclusion ROI 1 for the C4 witness run: the arc's last point, whose
    closest approach is uniquely at node 2. -/
def roiC : List Vec3 := [⟨2, 0, 0⟩]

/-- Input of the C4 witness: both ROIs have unique closest approaches
    (nodes 1 and 2). -/
def inpC4w : SegInput :=
  ⟨[slArc], none, [⟨"b", [roiA, roiC], [], none, onesVol⟩], 10, 0⟩

/-- Input of the C8 witness: an all-zero probability map with threshold 0. -/
def inpC8 : SegInput :=
  ⟨[slArc], none, [⟨"b", [roiA, roiB], [], none, zeroVol⟩], 10, 0⟩

/-- Input of the C10 witness: a constrained bundle (`cross_midline=True`)
    with `self.crosses` never set (`split_sls` was not called). -/
def inpC10 : SegInput :=
  ⟨[slArc], none, [⟨"b", [roiA, roiB], [], some true, onesVol⟩], 10, 0⟩

/-- Bundle spec of the C7 counterexample: two ROIs of different shapes
    (`[2]` and `[3]`), no probability map. -/
def specC7 : BundleSpecRaw :=
  ⟨[⟨[2], [0, 0]⟩, ⟨[3], [0, 0, 0]⟩], [true, true], none, none⟩

/-- Bundle of the C5 witness: two single-node streamlines whose squared
    Mahalanobis distances are both `1`. -/
def c5bundle : List Streamline := [[⟨2, 2, 2⟩], [⟨0, 0, 0⟩]]

/-! ## Order lemmas for the fraction arithmetic -/

theorem Q.lt_def {a b : Q} : a < b ↔ a.num * b.den < b.num * a.den := Iff.rfl

theorem Q.le_def {a b : Q} : a ≤ b ↔ a.num * b.den ≤ b.num * a.den := Iff.rfl

theorem Q.pos_iff {a : Q} : 0 < a ↔ 0 < a.num := by
  show (0 : Int) * a.den < a.num * 1 ↔ 0 < a.num
  simp

theorem Q.not_lt {a b : Q} : ¬a < b ↔ b ≤ a := by
  rw [Q.lt_def, Q.le_def]
  exact Int.not_lt

theorem Q.le_of_lt {a b : Q} (h : a < b) : a ≤ b := Int.le_of_lt h

theorem Q.lt_irrefl (a : Q) : ¬a < a := by
  rw [Q.lt_def]
  exact Int.lt_irrefl _

theorem Q.lt_of_lt_of_le {a b c : Q} (ha : a.Wf) (hb : b.Wf) (hc : c.Wf)
    (h1 : a < b) (h2 : b ≤ c) : a < c := by
  rw [Q.lt_def] at h1 ⊢
  rw [Q.le_def] at h2
  refine (mul_lt_mul_left hb).mp ?_
  calc b.den * (a.num * c.den) = a.num * b.den * c.den := by ring
    _ < b.num * a.den * c.den := by
        exact mul_lt_mul_of_pos_right h1 hc
    _ = b.num * c.den * a.den := by ring
    _ ≤ c.num * b.den * a.den := by
        exact mul_le_mul_of_nonneg_right h2 ha.le
    _ = b.den * (c.num * a.den) := by ring

theorem Q.le_trans {a b c : Q} (ha : a.Wf) (hb : b.Wf) (hc : c.Wf)
    (h1 : a ≤ b) (h2 : b ≤ c) : a ≤ c := by
  rw [Q.le_def] at h1 h2 ⊢
  refine (mul_le_mul_left hb).mp ?_
  calc b.den * (a.num * c.den) = a.num * b.den * c.den := by ring
    _ ≤ b.num * a.den * c.den := by
        exact mul_le_mul_of_nonneg_right h1 hc.le
    _ = b.num * c.den * a.den := by ring
    _ ≤ c.num * b.den * a.den := by
        exact mul_le_mul_of_nonneg_right h2 ha.le
    _ = b.den * (c.num * a.den) := by ring

theorem Q.zero_wf : (0 : Q).Wf := by
  show (0 : Int) < 1
  norm_num

/-- Sums of well-formed fractions are well-formed. -/
theorem Q.sum_wf : ∀ {l : List Q}, (∀ q ∈ l, q.Wf) → l.sum.Wf
  | [], _ => Q.zero_wf
  | a :: as, h => by
    have ha : a.Wf := h a (List.mem_cons_self a as)
    have hs : as.sum.Wf := Q.sum_wf (fun q hq => h q (List.mem_cons_of_mem a hq))
    show 0 < (a + as.sum).den
    show 0 < a.den * as.sum.den
    exact mul_pos ha hs

/-- A list of well-formed fractions with a positive sum contains a positive
    element. -/
theorem Q.sum_pos_exists : ∀ {l : List Q}, (∀ q ∈ l, q.Wf) → 0 < l.sum →
    ∃ q ∈ l, 0 < q
  | [], _, h => absurd h (Q.lt_irrefl 0)
  | a :: as, hwf, h => by
    by_cases hpa : 0 < a
    · exact ⟨a, List.mem_cons_self a as, hpa⟩
    · have ha : a.Wf := hwf a (List.mem_cons_self a as)
      have hswf : as.sum.Wf :=
        Q.sum_wf (fun q hq => hwf q (List.mem_cons_of_mem a hq))
      by_cases hps : 0 < as.sum
      · obtain ⟨q, hq, hq0⟩ :=
          Q.sum_pos_exists (fun q hq => hwf q (List.mem_cons_of_mem a hq)) hps
        exact ⟨q, List.mem_cons_of_mem a hq, hq0⟩
      · exfalso
        rw [Q.pos_iff] at hpa hps
        have hsum : 0 < (a + as.sum).num := Q.pos_iff.mp (by simpa using h)
        have : (a + as.sum).num = a.num * as.sum.den + as.sum.num * a.den := rfl
        rw [this] at hsum
        push_neg at hpa hps
        have h1 : a.num * as.sum.den ≤ 0 :=
          mul_nonpos_iff.mpr (Or.inr ⟨hpa, hswf.le⟩)
        have h2 : as.sum.num * a.den ≤ 0 :=
          mul_nonpos_iff.mpr (Or.inr ⟨hps, ha.le⟩)
        omega

/-! ## List infrastructure lemmas -/

theorem getD_of_get? {l : List α} {i : ℕ} {a d : α} (h : l.get? i = some a) :
    l.getD i d = a := by
  simp [List.getD_eq_getElem?_getD, ← List.get?_eq_getElem?, h]

theorem withIdx_get? : ∀ (l : List α) (s i : ℕ),
    (withIdx l s).get? i = (l.get? i).map (fun a => (s + i, a))
  | [], s, i => by simp [withIdx]
  | a :: as, s, 0 => by simp [withIdx]
  | a :: as, s, i + 1 => by
    have h : s + 1 + i = s + (i + 1) := by omega
    show (withIdx as (s + 1)).get? i = _
    rw [withIdx_get? as (s + 1) i, List.get?_cons_succ]
    simp only [h]

theorem withIdx_mem {l : List α} {s : ℕ} {p : ℕ × α} (h : p ∈ withIdx l s) :
    s ≤ p.1 ∧ l.get? (p.1 - s) = some p.2 := by
  obtain ⟨n, hn⟩ := List.mem_iff_get?.mp h
  rw [withIdx_get? l s n] at hn
  cases hl : l.get? n with
  | none => rw [hl] at hn; simp at hn
  | some a =>
    rw [hl] at hn
    have hp : (s + n, a) = p := Option.some.inj hn
    subst hp
    constructor
    · show s ≤ s + n
      omega
    · show l.get? (s + n - s) = some a
      have h2 : s + n - s = n := by omega
      rw [h2, hl]

theorem mapE_length {f : α → Except ε β} :
    ∀ {l : List α} {ys : List β}, mapE f l = .ok ys → ys.length = l.length
  | [], ys, h => by
    simp only [mapE] at h
    cases h
    rfl
  | a :: as, ys, h => by
    simp only [mapE] at h
    cases hfa : f a with
    | error e => rw [hfa] at h; cases h
    | ok b =>
      rw [hfa] at h
      cases hrest : mapE f as with
      | error e => rw [hrest] at h; cases h
      | ok bs =>
        rw [hrest] at h
        cases h
        simp [mapE_length hrest]

theorem mapE_get? {f : α → Except ε β} :
    ∀ {l : List α} {ys : List β}, mapE f l = .ok ys →
      ∀ {i : ℕ} {a : α}, l.get? i = some a →
        ∃ b, ys.get? i = some b ∧ f a = .ok b
  | [], ys, h, i, a, ha => by simp at ha
  | x :: xs, ys, h, i, a, ha => by
    simp only [mapE] at h
    cases hfx : f x with
    | error e => rw [hfx] at h; cases h
    | ok b =>
      rw [hfx] at h
      cases hrest : mapE f xs with
      | error e => rw [hrest] at h; cases h
      | ok bs =>
        rw [hrest] at h
        cases h
        cases i with
        | zero =>
          cases ha
          exact ⟨b, rfl, hfx⟩
        | succ n => exact mapE_get? hrest ha

/-! ## C9: `clean_fiber_group` is a no-op below `min_sl` -/

/-- C9: for every input with fewer than `min_sl` streamlines,
    `clean_fiber_group` returns the input collection unchanged — for *any*
    choice of the external resampling capability, round budget, threshold
    and statistic, showing that no resampling, distance computation or
    removal influences the result. -/
theorem c9_clean_noop_below_min (ops : Ops) (streamlines : List Streamline)
    (nPoints cleanRounds : ℕ) (t : Q) (minSl : ℕ) (stat : List Q → Q)
    (h : streamlines.length < minSl) :
    cleanFiberGroup ops streamlines nPoints cleanRounds t minSl stat =
      some streamlines := by
  unfold cleanFiberGroup
  rw [if_pos h]

/-- Witness for C9 at the spec's example sizes: a 1-streamline input with
    `min_sl = 20` is returned unchanged. -/
theorem c9_clean_noop_below_min_witness :
    [lineSl 0].length < 20 ∧
      cleanFiberGroup opsSimple [lineSl 0] 100 5 3 20 mean = some [lineSl 0] :=
  ⟨by decide, c9_clean_noop_below_min opsSimple [lineSl 0] 100 5 3 20 mean (by decide)⟩

/-! ## C3: empty ROI lists are vacuously satisfied at the helper level,
    but `segment_sls` then crashes on the bookkeeping -/

/-- C3 (amended): `_check_sl_with_inclusion` and `_check_sl_with_exclusion`
    treat an empty ROI list as vacuously satisfied — they return success
    (`True`) and raise nothing, for every streamline and tolerance. -/
theorem c3_empty_roi_lists_vacuous (sl : Streamline) (tol : Q) :
    checkInclusion sl [] tol = .ok (true, []) ∧
      checkExclusion sl [] tol = .ok true :=
  ⟨rfl, rfl⟩

/-- C3 counterexample: classification against a bundle with an *empty*
    inclusion ROI list does **not** complete without error: the streamline
    passes the vacuous inclusion and exclusion tests, and `segment_sls` then
    evaluates `np.argmin(dist[0], 0)` on the empty accumulated distance
    list, raising an `IndexError`. -/
theorem c3_counterexample :
    (inpC3.bundles.map BundleSeg.includeRois) = [[]] ∧
      segmentSls opsSimple inpC3 = .error .indexError :=
  ⟨rfl, rfl⟩

/-! ## C1: the midline gate only rejects crossing streamlines -/

/-- C1 (amended): with `self.crosses` available, the midline gate of
    `segment_sls` rejects a streamline iff the streamline is classified as
    crossing *and* the rule is `cross_midline=False`.  In particular a
    streamline classified as non-crossing is never rejected, even when the
    rule demands crossing (`cross_midline=True`) — only one direction of
    disagreement is rejected. -/
theorem c1_midline_gate_rejects_only_crossing (rule : Bool)
    (crosses : List Bool) (i : ℕ) (c : Bool) (h : crosses.get? i = some c) :
    (midlinePass (some rule) (some crosses) i = .ok false ↔
      c = true ∧ rule = false) := by
  simp only [midlinePass, h]
  cases c <;> cases rule <;> simp

/-- Witness for C1: a crossing streamline with rule `False` is rejected. -/
theorem c1_midline_gate_witness :
    ([true].get? 0 = some true) ∧
      (midlinePass (some false) (some [true]) 0 = .ok false ↔
        true = true ∧ false = false) :=
  ⟨rfl, c1_midline_gate_rejects_only_crossing false [true] 0 true rfl⟩

/-- C1 counterexample: a bundle whose rule says streamlines *must* cross
    (`cross_midline=True`) and a streamline classified as *not* crossing
    (`self.crosses = [False]`): the claim says it is rejected, but
    `segment_sls` assigns it to the bundle's fiber group. -/
theorem c1_counterexample :
    inpC1.crosses = some [false] ∧
      (inpC1.bundles.map BundleSeg.crossMidline) = [some true] ∧
      segmentSls opsSimple inpC1 = .ok [("b", [slArc.reverse])] :=
  ⟨rfl, rfl, rfl⟩

/-! ## C7: the default probability map is shaped like the *last* ROI -/

/-- C7 (amended): for a bundle spec without a probability map and a
    nonempty rules list, `create_prob` substitutes an all-ones volume whose
    shape is that of the ROI of the *last* rule, `ROIs[len(rules) - 1]` (the
    rules-loop variable `roi` leaks); this coincides with the first ROI only
    when there is one rule or the ROI shapes agree. -/
theorem c7_default_prob_map_last_roi (spec : BundleSpecRaw) (n : ℕ)
    (roi : Volume) (hn : spec.rules.length = n + 1)
    (hroi : spec.rois.get? n = some roi) (hpm : spec.probMap = none) :
    chosenProbMap spec = some (npOnes roi.shape) := by
  have h1 : roiAfterRulesLoop spec = some roi := by
    unfold roiAfterRulesLoop
    rw [hn]
    exact hroi
  unfold chosenProbMap
  rw [h1, hpm]
  rfl

/-- Witness for C7 (amended) on the two-ROI spec. -/
theorem c7_default_prob_map_last_roi_witness :
    specC7.rules.length = 1 + 1 ∧
      specC7.rois.get? 1 = some ⟨[3], [0, 0, 0]⟩ ∧
      specC7.probMap = none ∧
      chosenProbMap specC7 = some (npOnes [3]) :=
  ⟨rfl, rfl, rfl,
    c7_default_prob_map_last_roi specC7 1 ⟨[3], [0, 0, 0]⟩ rfl rfl rfl⟩

/-- C7 counterexample: a bundle spec whose two ROIs have different shapes
    (`[2]` then `[3]`) and no probability map: the substituted all-ones
    volume has the shape of the *last* ROI, not the first. -/
theorem c7_counterexample :
    (specC7.rois.map Volume.shape).get? 0 = some [2] ∧
      chosenProbMap specC7 = some (npOnes [3]) ∧
      (npOnes [3]).shape ≠ [2] := by
  refine ⟨rfl, rfl, ?_⟩
  decide

/-! ## C2: the cleaning loop -/

/-- C2 (amended): the cleaning loop of `clean_fiber_group` runs at most
    `clean_rounds` rounds (no budget left returns the current indices);
    stops early as soon as no distance exceeds the threshold; each executed
    round keeps exactly the streamlines whose distance is below the
    threshold at every node and recomputes the matrix on the survivors; and
    its size guard compares `min_sl` with the *original input count*
    `nOrig`, which never changes — in particular when the original count is
    at most `min_sl` the loop never runs, and when it exceeds `min_sl` the
    guard stays true forever, so the loop does *not* stop when the count of
    currently surviving streamlines drops to or below `min_sl`. -/
theorem c2_clean_loop_amended (t : Q) (minSl nOrig fuel : ℕ)
    (w : List (List (Option Q))) (idx : List ℕ) (fg : List Streamline) :
    (cleanLoop t minSl nOrig 0 w idx fg = some idx) ∧
      (anyGt w t = false → cleanLoop t minSl nOrig fuel w idx fg = some idx) ∧
      (nOrig ≤ minSl → cleanLoop t minSl nOrig fuel w idx fg = some idx) ∧
      (anyGt w t = true → minSl < nOrig →
        cleanLoop t minSl nOrig (fuel + 1) w idx fg =
          match mahalSqMatrix (gather fg (keepIndices w t)) mean with
          | none => none
          | some w2 => cleanLoop t minSl nOrig fuel w2
              (gather idx (keepIndices w t)) (gather fg (keepIndices w t))) := by
  refine ⟨rfl, ?_, ?_, ?_⟩
  · intro h
    cases fuel with
    | zero => rfl
    | succ r =>
      unfold cleanLoop
      rw [if_neg]
      simp [h]
  · intro h
    cases fuel with
    | zero => rfl
    | succ r =>
      unfold cleanLoop
      rw [if_neg]
      omega
  · intro h1 h2
    conv_lhs => rw [cleanLoop]
    rw [if_pos ⟨h1, h2⟩]

/-- Witness for C2 (amended): a matrix with no entry above the threshold
    makes the loop stop at once. -/
theorem c2_clean_loop_amended_witness :
    anyGt [[some 0]] 1 = false ∧
      cleanLoop 1 3 5 2 [[some 0]] [0] [] = some [0] :=
  ⟨by decide, (c2_clean_loop_amended 1 3 5 2 [[some 0]] [0] []).2.1 (by decide)⟩

/-- C2 counterexample: five streamlines, `min_sl = 3`, threshold `1`.
    Round 1 keeps exactly the 3 = `min_sl` streamlines at indices 1, 2, 3 —
    by the claim's stopping rule (stop when the surviving count would drop
    to or below `min_sl`) the loop would stop there with 3 streamlines —
    but the code's guard still sees the original count 5 > 3, runs another
    round and returns a single streamline, below `min_sl`. -/
theorem c2_counterexample :
    keepIndices ((mahalSqMatrix (resampleBundle opsSimple c2data 2) mean).getD []) 1
        = [1, 2, 3] ∧
      cleanFiberGroup opsSimple c2data 2 5 1 3 mean = some [lineSl 4] ∧
      [lineSl 4].length < 3 := by
  decide

/-! ## C6: the in-loop recomputation drops the `stat` argument -/

/-- C6: the recomputation inside `clean_fiber_group`'s loop calls
    `gaussian_weights(fgarray, return_mahalnobis=True)` *without*
    `stat=stat`, so from the second round on the distances are measured from
    the per-node `np.mean` even when the caller chose `np.median`.  On
    `c6data` with `stat=median` the code keeps two streamlines, while the
    spec's recompute-with-the-chosen-statistic variant (identical except for
    passing `stat` in the loop) keeps one: round 2's filter differs
    precisely because the code recenters on the mean. -/
theorem c6_stat_dropped_in_loop :
    cleanFiberGroup opsSimple c6data 2 5 1 1 median = some [lineSl 1, lineSl 2] ∧
      cleanFiberGroupWithStat opsSimple c6data 2 5 1 1 median = some [lineSl 1] ∧
      cleanFiberGroup opsSimple c6data 2 5 1 1 median ≠
        cleanFiberGroupWithStat opsSimple c6data 2 5 1 1 median := by
  refine ⟨by decide, by decide, ?_⟩
  decide

/-! ## C4 counterexample: the orientation invariant fails with tied
    closest approaches -/

/-- C4 counterexample: the arc's distance profile to `roiB`'s coordinate is
    tied between its two endpoints.  The stored indices are `1` (for
    `roiA`) and `0` (for `roiB`, the first minimizer), so `segment_sls`
    reverses the streamline — but after the reversal the closest-approach
    index for inclusion-ROI 0 is still `1` and for inclusion-ROI 1 is still
    `0` (`np.argmin` picks the *other* tied endpoint), violating the claimed
    invariant for the streamline stored in the fiber group. -/
theorem c4_counterexample :
    (inpC4.bundles.map BundleSeg.includeRois) = [[roiA, roiB]] ∧
      segmentSls opsSimple inpC4 = .ok [("b", [slArc.reverse])] ∧
      closestApproachIdx slArc.reverse roiA = some 1 ∧
      closestApproachIdx slArc.reverse roiB = some 0 ∧
      ¬(1 : ℕ) ≤ 0 :=
  ⟨rfl, rfl, rfl, rfl, by omega⟩

/-! ## C10: a missing `self.crosses` raises an uncaught `AttributeError` -/

/-- One-step unfolding of `mapE` when the head fails. -/
theorem mapE_cons_error {f : α → Except ε β} {a : α} {as : List α} {e : ε}
    (h : f a = .error e) : mapE f (a :: as) = .error e := by
  unfold mapE
  rw [h]

/-- C10: without a prior `split_sls` the attribute `self.crosses` does not
    exist.  The gate's `try` block catches only `NameError`, which the
    attribute access does not raise: `midlinePass` with an absent `crosses`
    is an uncaught `AttributeError` for every constrained rule, and a
    `segment_sls` call whose first bundle is constrained and whose first
    streamline passes the probability gate raises it. -/
theorem c10_missing_crosses_attribute_error :
    (∀ (rule : Bool) (i : ℕ),
        midlinePass (some rule) none i = .error .attributeError) ∧
      ∀ (ops : Ops) (inp : SegInput) (b : BundleSeg) (rest : List BundleSeg)
        (s : Streamline) (rest2 : List Streamline) (rule : Bool),
        inp.crosses = none → inp.bundles = b :: rest →
        inp.streamlines = s :: rest2 → b.crossMidline = some rule →
        inp.probThreshold < (fiberProbs ops inp.streamlines b).getD 0 0 →
        segmentSls ops inp = .error .attributeError := by
  constructor
  · intro rule i
    rfl
  · intro ops inp b rest s rest2 rule hc hb hs hcm hp
    rw [hs] at hp
    have hcp : classifyPair inp.tol inp.probThreshold inp.crosses b.crossMidline
        ((fiberProbs ops (s :: rest2) b).getD 0 0) 0 s b.includeRois
        b.excludeRois = .error .attributeError := by
      unfold classifyPair
      rw [if_pos hp, hcm, hc]
      rfl
    have hph : phase1 ops inp = .error .attributeError := by
      unfold phase1
      rw [hb, hs]
      refine mapE_cons_error ?_
      have hwi : withIdx (s :: rest2) 0 = (0, s) :: withIdx rest2 1 := rfl
      show mapE _ (withIdx (s :: rest2) 0) = _
      rw [hwi]
      exact mapE_cons_error hcp
    unfold segmentSls
    rw [hph]

/-- Witness for C10: the concrete constrained run raises
    `AttributeError`. -/
theorem c10_missing_crosses_witness :
    inpC10.crosses = none ∧
      segmentSls opsSimple inpC10 = .error .attributeError :=
  ⟨rfl,
    c10_missing_crosses_attribute_error.2 opsSimple inpC10
      ⟨"b", [roiA, roiB], [], some true, onesVol⟩ [] slArc [] true rfl rfl rfl
      rfl (by decide)⟩

/-! ## C5: weight-mode `gaussian_weights` sums to one per node -/

/-- C5: for a bundle of at least two streamlines whose squared Mahalanobis
    distances are all defined and positive (the covariance inversion
    succeeds everywhere and no streamline sits exactly on the per-node
    statistic), the normalized inverse-distance weights of
    `gaussian_weights` sum to `1` across the streamline index at every node
    position. -/
theorem c5_gaussian_weights_sum_one (bundle : List Streamline)
    (stat : List Q → Q) (h2 : 2 ≤ bundle.length)
    (hpos : ∀ fn ∈ Finset.range bundle.length,
      ∀ node ∈ Finset.range (nPointsOf bundle),
        mahalSqEntryAt bundle stat fn node ≠ none ∧
          0 < ((mahalSqEntryAt bundle stat fn node).getD 0).num ∧
          0 < ((mahalSqEntryAt bundle stat fn node).getD 0).den) :
    ∀ node ∈ Finset.range (nPointsOf bundle),
      ∑ fn ∈ Finset.range bundle.length,
        gaussianWeights bundle stat fn node = 1 := by
  intro node hnode
  have hlen : bundle.length ≠ 1 := by omega
  have hd : ∀ fn ∈ Finset.range bundle.length,
      0 < mahalReal bundle stat fn node := by
    intro fn hfn
    obtain ⟨hne, hnum, hden⟩ := hpos fn hfn node hnode
    cases he : mahalSqEntryAt bundle stat fn node with
    | none => exact absurd he hne
    | some q =>
      rw [he] at hnum hden
      simp only [Option.getD_some] at hnum hden
      unfold mahalReal
      rw [he]
      apply Real.sqrt_pos.mpr
      have hq : (0 : ℚ) < q.toRat := by
        unfold Q.toRat
        apply div_pos
        · exact_mod_cast hnum
        · exact_mod_cast hden
      exact_mod_cast hq
  have hS : 0 < ∑ fm ∈ Finset.range bundle.length,
      (mahalReal bundle stat fm node)⁻¹ := by
    apply Finset.sum_pos
    · intro fm hfm
      exact inv_pos.mpr (hd fm hfm)
    · exact ⟨0, Finset.mem_range.mpr (by omega)⟩
  have hw : ∑ fn ∈ Finset.range bundle.length,
      gaussianWeights bundle stat fn node
      = (∑ fn ∈ Finset.range bundle.length,
          (mahalReal bundle stat fn node)⁻¹) /
        ∑ fm ∈ Finset.range bundle.length,
          (mahalReal bundle stat fm node)⁻¹ := by
    rw [Finset.sum_div]
    apply Finset.sum_congr rfl
    intro fn hfn
    unfold gaussianWeights
    rw [if_neg hlen]
  rw [hw, div_self (ne_of_gt hS)]

/-- Witness for C5 on the two-streamline bundle whose per-node squared
    distances are both `1`. -/
theorem c5_gaussian_weights_sum_one_witness :
    2 ≤ c5bundle.length ∧
      (∀ fn ∈ Finset.range c5bundle.length,
        ∀ node ∈ Finset.range (nPointsOf c5bundle),
          mahalSqEntryAt c5bundle mean fn node ≠ none ∧
            0 < ((mahalSqEntryAt c5bundle mean fn node).getD 0).num ∧
            0 < ((mahalSqEntryAt c5bundle mean fn node).getD 0).den) ∧
      ∀ node ∈ Finset.range (nPointsOf c5bundle),
        ∑ fn ∈ Finset.range c5bundle.length,
          gaussianWeights c5bundle mean fn node = 1 :=
  ⟨by decide, by decide,
    c5_gaussian_weights_sum_one c5bundle mean (by decide) (by decide)⟩

/-! ## Inversion lemmas for the `segment_sls` pipeline -/

theorem Q.le_refl (a : Q) : a ≤ a := Int.le_refl _

/-- A valid default access is a list member. -/
theorem getD_mem : ∀ {l : List α} {i : ℕ} {d : α}, i < l.length → l.getD i d ∈ l
  | [], i, d, h => by simp at h
  | a :: as, 0, d, _ => List.mem_cons_self a as
  | a :: as, i + 1, d, h =>
    List.mem_cons_of_mem a (getD_mem (by simpa using h))

/-- One-step equation for `argmaxFirst` when the tail has no maximum. -/
theorem argmaxFirst_cons_none {a : Q} {as : List Q}
    (h : argmaxFirst as = none) : argmaxFirst (a :: as) = some 0 := by
  unfold argmaxFirst
  rw [h]

/-- One-step equation for `argmaxFirst` when the tail has a maximum. -/
theorem argmaxFirst_cons_some {a : Q} {as : List Q} {j : ℕ}
    (h : argmaxFirst as = some j) :
    argmaxFirst (a :: as) = if a < as.getD j 0 then some (j + 1) else some 0 := by
  unfold argmaxFirst
  rw [h]

theorem argmaxFirst_lt_length :
    ∀ {l : List Q} {i : ℕ}, argmaxFirst l = some i → i < l.length
  | [], i, h => by simp [argmaxFirst] at h
  | a :: as, i, h => by
    cases ha : argmaxFirst as with
    | none =>
      rw [argmaxFirst_cons_none ha] at h
      injection h with h2
      subst h2
      simp
    | some j =>
      rw [argmaxFirst_cons_some ha] at h
      by_cases hc : a < as.getD j 0
      · rw [if_pos hc] at h
        injection h with h2
        subst h2
        have := argmaxFirst_lt_length ha
        simp only [List.length_cons]
        omega
      · rw [if_neg hc] at h
        injection h with h2
        subst h2
        simp

theorem argmaxFirst_none : ∀ {l : List Q}, argmaxFirst l = none → l = []
  | [], _ => rfl
  | a :: as, h => by
    cases ha : argmaxFirst as with
    | none => rw [argmaxFirst_cons_none ha] at h; cases h
    | some j =>
      rw [argmaxFirst_cons_some ha] at h
      by_cases hc : a < as.getD j 0
      · rw [if_pos hc] at h; cases h
      · rw [if_neg hc] at h; cases h

/-- The value at `np.argmax` dominates every entry (for well-formed
    entries). -/
theorem argmaxFirst_max :
    ∀ {l : List Q} {i : ℕ}, (∀ q ∈ l, q.Wf) → argmaxFirst l = some i →
      ∀ j < l.length, l.getD j 0 ≤ l.getD i 0
  | [], i, _, h => by simp [argmaxFirst] at h
  | a :: as, i, hwf, h => by
    have hwfa : a.Wf := hwf a (List.mem_cons_self a as)
    have hwfas : ∀ q ∈ as, q.Wf := fun q hq => hwf q (List.mem_cons_of_mem a hq)
    cases ha : argmaxFirst as with
    | none =>
      rw [argmaxFirst_cons_none ha] at h
      injection h with h2
      subst h2
      have haz : as = [] := argmaxFirst_none ha
      subst haz
      intro j hj
      cases j with
      | zero => exact Q.le_refl a
      | succ k => simp at hj
    | some jm =>
      rw [argmaxFirst_cons_some ha] at h
      have hjm : jm < as.length := argmaxFirst_lt_length ha
      have hwfjm : (as.getD jm 0).Wf :=
        hwf _ (List.mem_cons_of_mem a (getD_mem hjm))
      by_cases hc : a < as.getD jm 0
      · rw [if_pos hc] at h
        injection h with h2
        subst h2
        intro j hj
        cases j with
        | zero => exact Q.le_of_lt hc
        | succ k =>
          show as.getD k 0 ≤ as.getD jm 0
          exact argmaxFirst_max hwfas ha k (by simpa using hj)
      · rw [if_neg hc] at h
        injection h with h2
        subst h2
        intro j hj
        cases j with
        | zero => exact Q.le_refl a
        | succ k =>
          show as.getD k 0 ≤ a
          have hk : k < as.length := by simpa using hj
          have hwfk : (as.getD k 0).Wf :=
            hwf _ (List.mem_cons_of_mem a (getD_mem hk))
          exact Q.le_trans hwfk hwfjm hwfa
            (argmaxFirst_max hwfas ha k hk) (Q.not_lt.mp hc)

/-- The probability gate rejects at once when the averaged probability does
    not exceed the threshold. -/
theorem classifyPair_prob_rejected {tol probThr : Q} {crossesOpt}
    {crossMidline} {fiberProb : Q} {slIdx : ℕ} {sl : Streamline}
    {incl excl : List (List Vec3)} (h : ¬probThr < fiberProb) :
    classifyPair tol probThr crossesOpt crossMidline fiberProb slIdx sl
      incl excl = .ok none := by
  unfold classifyPair
  rw [if_neg h]

/-- The distance list a successful inclusion check accumulates is exactly
    the list of `cdist` matrices, in ROI order. -/
theorem checkInclusion_ok_dists :
    ∀ {sl : Streamline} {rois : List (List Vec3)} {tol : Q}
      {ds : List (List (List Q))},
      checkInclusion sl rois tol = .ok (true, ds) → ds = rois.map (cdistSq sl)
  | sl, [], tol, ds, h => by
    unfold checkInclusion at h
    injection h with h2
    injection h2 with hb hd
    rw [← hd]
    rfl
  | sl, roi :: rest, tol, ds, h => by
    unfold checkInclusion at h
    simp only [] at h
    cases hm : matMin (cdistSq sl roi) with
    | none => rw [hm] at h; cases h
    | some mn =>
      rw [hm] at h
      simp only [] at h
      by_cases hc : tol < mn
      · rw [if_pos hc] at h
        injection h with h2
        injection h2 with hb hd
        cases hb
      · rw [if_neg hc] at h
        cases hrec : checkInclusion sl rest tol with
        | error e => rw [hrec] at h; cases h
        | ok p =>
          rw [hrec] at h
          obtain ⟨b2, ds2⟩ := p
          cases b2 with
          | false =>
            simp only [] at h
            injection h with h2
            injection h2 with hb hd
            cases hb
          | true =>
            simp only [] at h
            injection h with h2
            injection h2 with hb hd
            rw [← hd, checkInclusion_ok_dists hrec]
            rfl

/-- Inversion of an accepting `classifyPair`: the score is the averaged
    probability (which exceeded the threshold), and the stored pair is the
    first-minimizer bookkeeping of the first two inclusion ROIs. -/
theorem classifyPair_some_inv {tol probThr : Q} {crossesOpt} {crossMidline}
    {fiberProb : Q} {slIdx : ℕ} {sl : Streamline}
    {incl excl : List (List Vec3)} {pr : Q} {m0 m1 : ℕ}
    (h : classifyPair tol probThr crossesOpt crossMidline fiberProb slIdx sl
      incl excl = .ok (some (pr, m0, m1))) :
    pr = fiberProb ∧ probThr < fiberProb ∧
      ∃ d0 d1, (incl.map (cdistSq sl)).get? 0 = some d0 ∧
        (incl.map (cdistSq sl)).get? 1 = some d1 ∧
        argminFirst (col0 d0) = some m0 ∧ argminFirst (col0 d1) = some m1 := by
  unfold classifyPair at h
  by_cases hp : probThr < fiberProb
  · rw [if_pos hp] at h
    cases hmp : midlinePass crossMidline crossesOpt slIdx with
    | error e => rw [hmp] at h; cases h
    | ok pass =>
      rw [hmp] at h
      cases pass with
      | false => simp only [] at h; cases h
      | true =>
        simp only [] at h
        cases hci : checkInclusion sl incl tol with
        | error e => rw [hci] at h; cases h
        | ok p =>
          rw [hci] at h
          obtain ⟨isClose, dist⟩ := p
          cases isClose with
          | false => simp only [] at h; cases h
          | true =>
            simp only [] at h
            cases hce : checkExclusion sl excl tol with
            | error e => rw [hce] at h; cases h
            | ok isFar =>
              rw [hce] at h
              cases isFar with
              | false => simp only [] at h; cases h
              | true =>
                simp only [] at h
                cases hd0 : dist.get? 0 with
                | none => rw [hd0] at h; cases h
                | some d0 =>
                  rw [hd0] at h
                  simp only [] at h
                  cases ha0 : argminFirst (col0 d0) with
                  | none => rw [ha0] at h; cases h
                  | some k0 =>
                    rw [ha0] at h
                    simp only [] at h
                    cases hd1 : dist.get? 1 with
                    | none => rw [hd1] at h; cases h
                    | some d1 =>
                      rw [hd1] at h
                      simp only [] at h
                      cases ha1 : argminFirst (col0 d1) with
                      | none => rw [ha1] at h; cases h
                      | some k1 =>
                        rw [ha1] at h
                        simp only [] at h
                        injection h with h2
                        injection h2 with h3
                        injection h3 with hpr hrest
                        injection hrest with hm0 hm1
                        subst hpr
                        subst hm0
                        subst hm1
                        have hds := checkInclusion_ok_dists hci
                        subst hds
                        exact ⟨rfl, hp, d0, d1, hd0, hd1, ha0, ha1⟩
  · rw [if_neg hp] at h
    cases h

/-- Each cell of the phase-1 table is the corresponding `classifyPair`
    run. -/
theorem phase1_cell {ops : Ops} {inp : SegInput}
    {table : List (List (Option (Q × ℕ × ℕ)))}
    (h : phase1 ops inp = .ok table) {bIdx slIdx : ℕ} {b : BundleSeg}
    {s : Streamline} (hb : inp.bundles.get? bIdx = some b)
    (hs : inp.streamlines.get? slIdx = some s) :
    classifyPair inp.tol inp.probThreshold inp.crosses b.crossMidline
      ((fiberProbs ops inp.streamlines b).getD slIdx 0) slIdx s
      b.includeRois b.excludeRois
      = .ok ((table.getD bIdx []).getD slIdx none) := by
  obtain ⟨row, hrow, hfb⟩ := mapE_get? h hb
  have hwi : (withIdx inp.streamlines 0).get? slIdx = some (slIdx, s) := by
    rw [withIdx_get?, hs]
    simp
  obtain ⟨cell, hcell, hcp⟩ := mapE_get? hfb hwi
  rw [getD_of_get? hrow, getD_of_get? hcell]
  exact hcp

theorem scoreRow_length (table : List (List (Option (Q × ℕ × ℕ))))
    (nB slIdx : ℕ) : (scoreRow table nB slIdx).length = nB := by
  unfold scoreRow
  simp

theorem scoreRow_getD {table : List (List (Option (Q × ℕ × ℕ)))}
    {nB slIdx j : ℕ} (hj : j < nB) :
    (scoreRow table nB slIdx).getD j 0
      = (((table.getD j []).getD slIdx none).map (·.1)).getD 0 := by
  unfold scoreRow
  refine getD_of_get? ?_
  rw [List.get?_map, List.get?_range hj]
  rfl

/-- Every entry of a score row is either `0` or an averaged probability of
    its bundle; in particular it is well-formed whenever those are. -/
theorem scoreRow_entry_wf {ops : Ops} {inp : SegInput}
    {table : List (List (Option (Q × ℕ × ℕ)))}
    (hph : phase1 ops inp = .ok table) {slIdx : ℕ} {s : Streamline}
    (hs : inp.streamlines.get? slIdx = some s)
    (hlt : slIdx < inp.streamlines.length)
    (hwf : ∀ b2 ∈ inp.bundles, ∀ i ∈ List.range inp.streamlines.length,
        ((fiberProbs ops inp.streamlines b2).getD i 0).Wf) :
    ∀ q ∈ scoreRow table inp.bundles.length slIdx, q.Wf := by
  intro q hq
  obtain ⟨j, hjq⟩ := List.mem_iff_get?.mp hq
  have hjlen : j < inp.bundles.length := by
    have h1 : j < (scoreRow table inp.bundles.length slIdx).length := by
      cases hlen : (scoreRow table inp.bundles.length slIdx).length
      all_goals
        by_contra hcon
        push_neg at hcon
        rw [List.get?_eq_none.mpr (by omega)] at hjq
        cases hjq
    rwa [scoreRow_length] at h1
  cases hbj : inp.bundles.get? j with
  | none =>
    rw [List.get?_eq_none] at hbj
    omega
  | some bj =>
    have hcell := phase1_cell hph hbj hs
    have hqval : q = (((table.getD j []).getD slIdx none).map (·.1)).getD 0 := by
      rw [← scoreRow_getD hjlen, getD_of_get? hjq]
    cases hc : (table.getD j []).getD slIdx none with
    | none =>
      rw [hqval, hc]
      exact Q.zero_wf
    | some cell =>
      obtain ⟨pr, m0, m1⟩ := cell
      rw [hc] at hcell
      obtain ⟨hpr, -, -⟩ := classifyPair_some_inv hcell
      rw [hqval, hc]
      simp only [Option.map_some', Option.getD_some]
      rw [hpr]
      exact hwf bj (List.get?_mem hbj) slIdx (List.mem_range.mpr hlt)

/-! ## C8: the probability gate is a strict comparison -/

/-- C8: the probability gate rejects at `fiberProbability <= threshold`
    (strict `>` to keep): when every streamline's averaged probability for
    bundle `bIdx` is at most the threshold — as for an all-zero probability
    map with threshold 0 — no streamline scores for that bundle, and a
    completed `segment_sls` run assigns it the explicit empty fiber
    group. -/
theorem c8_prob_gate_strict (ops : Ops) (inp : SegInput) (bIdx : ℕ)
    (b : BundleSeg) (out : List (String × List Streamline))
    (hb : inp.bundles.get? bIdx = some b)
    (hwf : ∀ b2 ∈ inp.bundles, ∀ i ∈ List.range inp.streamlines.length,
        ((fiberProbs ops inp.streamlines b2).getD i 0).Wf)
    (hle : ∀ i ∈ List.range inp.streamlines.length,
        (fiberProbs ops inp.streamlines b).getD i 0 ≤ inp.probThreshold)
    (hok : segmentSls ops inp = .ok out) :
    out.get? bIdx = some (b.name, []) := by
  cases hph : phase1 ops inp with
  | error e =>
    unfold segmentSls at hok
    rw [hph] at hok
    cases hok
  | ok table =>
    unfold segmentSls at hok
    rw [hph] at hok
    simp only [] at hok
    injection hok with hout
    subst hout
    rw [List.get?_map, withIdx_get?, hb]
    simp only [Option.map_some', Nat.zero_add]
    have hsel : ((withIdx inp.streamlines 0).filter
        (fun p => decide (0 < (scoreRow table inp.bundles.length p.1).sum))).filter
        (fun p => decide
          (argmaxFirst (scoreRow table inp.bundles.length p.1) = some bIdx)) = [] := by
      rw [List.filter_eq_nil]
      rintro p hp hdec
      rw [List.mem_filter] at hp
      obtain ⟨hpw, hpsum⟩ := hp
      have hsum : 0 < (scoreRow table inp.bundles.length p.1).sum :=
        of_decide_eq_true hpsum
      have hargmax : argmaxFirst (scoreRow table inp.bundles.length p.1)
          = some bIdx := of_decide_eq_true hdec
      obtain ⟨-, hget⟩ := withIdx_mem hpw
      rw [Nat.sub_zero] at hget
      have hlt : p.1 < inp.streamlines.length := by
        by_contra hcon
        push_neg at hcon
        rw [List.get?_eq_none.mpr hcon] at hget
        cases hget
      have hbIdx : bIdx < inp.bundles.length := by
        by_contra hcon
        push_neg at hcon
        rw [List.get?_eq_none.mpr hcon] at hb
        cases hb
      have hcellB := phase1_cell hph hb hget
      have hrej := @classifyPair_prob_rejected inp.tol inp.probThreshold
        inp.crosses b.crossMidline ((fiberProbs ops inp.streamlines b).getD p.1 0)
        p.1 p.2 b.includeRois b.excludeRois
        (Q.not_lt.mpr (hle p.1 (List.mem_range.mpr hlt)))
      have hcnone : (table.getD bIdx []).getD p.1 none = none := by
        have h2 := hcellB.symm.trans hrej
        injection h2
      have hzero : (scoreRow table inp.bundles.length p.1).getD bIdx 0 = 0 := by
        rw [scoreRow_getD hbIdx, hcnone]
        rfl
      have hrowwf := scoreRow_entry_wf hph hget hlt hwf
      obtain ⟨qq, hqmem, hqpos⟩ := Q.sum_pos_exists hrowwf hsum
      obtain ⟨j, hjq⟩ := List.mem_iff_get?.mp hqmem
      have hjlen : j < (scoreRow table inp.bundles.length p.1).length := by
        by_contra hcon
        push_neg at hcon
        rw [List.get?_eq_none.mpr hcon] at hjq
        cases hjq
      have hqle := argmaxFirst_max hrowwf hargmax j hjlen
      rw [getD_of_get? hjq, hzero] at hqle
      exact Q.lt_irrefl 0
        (Q.lt_of_lt_of_le Q.zero_wf (hrowwf qq hqmem) Q.zero_wf hqpos hqle)
    rw [hsel]
    rfl

/-! ## Lemmas on `argminFirst` and reversal, for the orientation
    invariant -/

theorem Q.lt_asymm {a b : Q} (h : a < b) : ¬b < a := by
  rw [Q.lt_def] at h ⊢
  omega

/-- One-step equation for `argminFirst` when the tail has no minimum. -/
theorem argminFirst_cons_none {a : Q} {as : List Q}
    (h : argminFirst as = none) : argminFirst (a :: as) = some 0 := by
  unfold argminFirst
  rw [h]

/-- One-step equation for `argminFirst` when the tail has a minimum. -/
theorem argminFirst_cons_some {a : Q} {as : List Q} {j : ℕ}
    (h : argminFirst as = some j) :
    argminFirst (a :: as) = if as.getD j 0 < a then some (j + 1) else some 0 := by
  unfold argminFirst
  rw [h]

theorem argminFirst_lt_length :
    ∀ {l : List Q} {i : ℕ}, argminFirst l = some i → i < l.length
  | [], i, h => by simp [argminFirst] at h
  | a :: as, i, h => by
    cases ha : argminFirst as with
    | none =>
      rw [argminFirst_cons_none ha] at h
      injection h with h2
      subst h2
      simp
    | some j =>
      rw [argminFirst_cons_some ha] at h
      by_cases hc : as.getD j 0 < a
      · rw [if_pos hc] at h
        injection h with h2
        subst h2
        have := argminFirst_lt_length ha
        simp only [List.length_cons]
        omega
      · rw [if_neg hc] at h
        injection h with h2
        subst h2
        simp

/-- A strict unique minimum is what `np.argmin` returns. -/
theorem argminFirst_of_strictMin :
    ∀ {l : List Q} {i : ℕ}, IsStrictMinAt l i → argminFirst l = some i
  | [], i, h => by
    obtain ⟨hi, -⟩ := h
    simp at hi
  | a :: as, 0, h => by
    cases ha : argminFirst as with
    | none => exact argminFirst_cons_none ha
    | some j =>
      rw [argminFirst_cons_some ha]
      have hj : j < as.length := argminFirst_lt_length ha
      have hlt : a < as.getD j 0 := by
        have := h.2 (j + 1) (by simpa using hj) (by omega)
        simpa using this
      rw [if_neg (Q.lt_asymm hlt)]
  | a :: as, k + 1, h => by
    have hk : k < as.length := by
      have := h.1
      simpa using this
    have hmin : IsStrictMinAt as k := by
      refine ⟨hk, ?_⟩
      intro j hj hne
      have := h.2 (j + 1) (by simpa using hj) (by omega)
      simpa using this
    have ha : argminFirst as = some k := argminFirst_of_strictMin hmin
    rw [argminFirst_cons_some ha]
    have hlt : as.getD k 0 < a := by
      have := h.2 0 (by simp) (by omega)
      simpa using this
    rw [if_pos hlt]

/-- `getD` through a reversal. -/
theorem getD_reverse {l : List Q} {j : ℕ} (h : j < l.length) :
    l.reverse.getD j 0 = l.getD (l.length - 1 - j) 0 := by
  cases hv : l.get? (l.length - 1 - j) with
  | none =>
    rw [List.get?_eq_none] at hv
    omega
  | some v =>
    rw [getD_of_get? hv]
    have hr : l.reverse.get? j = some v := by
      rw [List.get?_reverse h]
      exact hv
    rw [getD_of_get? hr]

/-- Reversing a list moves a strict unique minimum from `i` to
    `length - 1 - i`. -/
theorem strictMin_reverse {l : List Q} {i : ℕ} (h : IsStrictMinAt l i) :
    IsStrictMinAt l.reverse (l.length - 1 - i) := by
  obtain ⟨hi, hmin⟩ := h
  constructor
  · rw [List.length_reverse]
    omega
  · intro j hj hne
    rw [List.length_reverse] at hj
    rw [getD_reverse (by omega), getD_reverse hj]
    have hidx : l.length - 1 - (l.length - 1 - i) = i := by omega
    rw [hidx]
    exact hmin (l.length - 1 - j) (by omega) (by omega)

/-- The first column of the distance matrix to a nonempty ROI is the
    per-node distance to the ROI's first coordinate. -/
theorem col0_cdistSq_cons (sl : Streamline) (rc : Vec3) (rest : List Vec3) :
    col0 (cdistSq sl (rc :: rest)) = sl.map (fun p => sqDist p rc) := by
  unfold col0 cdistSq
  induction sl with
  | nil => rfl
  | cons p ps ih =>
    simp only [List.map_cons, List.filterMap_cons, List.head?_cons] at ih ⊢
    rw [ih]

/-- Distances of the reversed streamline: the reversed distance column. -/
theorem col0_cdistSq_reverse (sl : Streamline) (roi : List Vec3) :
    col0 (cdistSq sl.reverse roi) = (col0 (cdistSq sl roi)).reverse := by
  unfold col0 cdistSq
  rw [List.map_reverse, List.filterMap_reverse]

/-- The distance column to the empty ROI is empty. -/
theorem col0_cdistSq_nil (sl : Streamline) :
    col0 (cdistSq sl []) = [] := by
  unfold col0 cdistSq
  induction sl with
  | nil => rfl
  | cons p ps ih =>
    simp only [List.map_cons, List.filterMap_cons]
    exact ih

/-- For a nonempty ROI the distance column has one entry per node. -/
theorem col0_cdistSq_length (sl : Streamline) (rc : Vec3) (rest : List Vec3) :
    (col0 (cdistSq sl (rc :: rest))).length = sl.length := by
  rw [col0_cdistSq_cons]
  exact List.length_map sl _

/-- The argmax entry of a score row accepted by both `segment_sls` filters
    is positive. -/
theorem scoreRow_argmax_pos {ops : Ops} {inp : SegInput}
    {table : List (List (Option (Q × ℕ × ℕ)))}
    (hph : phase1 ops inp = .ok table) {slIdx : ℕ} {s : Streamline}
    (hget : inp.streamlines.get? slIdx = some s)
    (hlt : slIdx < inp.streamlines.length)
    (hwf : ∀ b2 ∈ inp.bundles, ∀ i ∈ List.range inp.streamlines.length,
        ((fiberProbs ops inp.streamlines b2).getD i 0).Wf)
    {bIdx : ℕ} (hbIdx : bIdx < inp.bundles.length)
    (hsum : 0 < (scoreRow table inp.bundles.length slIdx).sum)
    (hargmax : argmaxFirst (scoreRow table inp.bundles.length slIdx)
      = some bIdx) :
    0 < (scoreRow table inp.bundles.length slIdx).getD bIdx 0 := by
  have hrowwf := scoreRow_entry_wf hph hget hlt hwf
  obtain ⟨q, hqmem, hqpos⟩ := Q.sum_pos_exists hrowwf hsum
  obtain ⟨j, hjq⟩ := List.mem_iff_get?.mp hqmem
  have hjlen : j < (scoreRow table inp.bundles.length slIdx).length := by
    by_contra hcon
    push_neg at hcon
    rw [List.get?_eq_none.mpr hcon] at hjq
    cases hjq
  have hqle := argmaxFirst_max hrowwf hargmax j hjlen
  rw [getD_of_get? hjq] at hqle
  have hwfb : ((scoreRow table inp.bundles.length slIdx).getD bIdx 0).Wf :=
    hrowwf _ (getD_mem (by rw [scoreRow_length]; exact hbIdx))
  exact Q.lt_of_lt_of_le Q.zero_wf (hrowwf q hqmem) hwfb hqpos hqle

/-! ## C4 (amended): the orientation invariant under unique closest
    approaches -/

/-- C4 (amended): for every streamline `t` of a fiber group produced by
    `segment_sls`, *provided the per-node distance profiles of `t` to the
    first coordinates of inclusion-ROI 0 and inclusion-ROI 1 have strict
    unique minimizers* `i0` and `i1`, those are the closest-approach node
    indices and the orientation invariant `i0 ≤ i1` holds.  (The C4
    counterexample shows the invariant can fail when the minimizer is
    tied.) -/
theorem c4_orientation_invariant_of_unique_min (ops : Ops) (inp : SegInput)
    (bIdx : ℕ) (nm : String) (group : List Streamline) (t : Streamline)
    (b : BundleSeg) (r0 r1 : List Vec3)
    (out : List (String × List Streamline)) (i0 i1 : ℕ)
    (hok : segmentSls ops inp = .ok out)
    (hout : out.get? bIdx = some (nm, group))
    (ht : t ∈ group)
    (hb : inp.bundles.get? bIdx = some b)
    (hr0 : b.includeRois.get? 0 = some r0)
    (hr1 : b.includeRois.get? 1 = some r1)
    (hwf : ∀ b2 ∈ inp.bundles, ∀ i ∈ List.range inp.streamlines.length,
        ((fiberProbs ops inp.streamlines b2).getD i 0).Wf)
    (hu0 : IsStrictMinAt (col0 (cdistSq t r0)) i0)
    (hu1 : IsStrictMinAt (col0 (cdistSq t r1)) i1) :
    closestApproachIdx t r0 = some i0 ∧ closestApproachIdx t r1 = some i1 ∧
      i0 ≤ i1 := by
  have hca0 : closestApproachIdx t r0 = some i0 := argminFirst_of_strictMin hu0
  have hca1 : closestApproachIdx t r1 = some i1 := argminFirst_of_strictMin hu1
  refine ⟨hca0, hca1, ?_⟩
  cases hph : phase1 ops inp with
  | error e =>
    unfold segmentSls at hok
    rw [hph] at hok
    cases hok
  | ok table =>
    unfold segmentSls at hok
    rw [hph] at hok
    simp only [] at hok
    injection hok with hout2
    subst hout2
    rw [List.get?_map, withIdx_get?, hb] at hout
    simp only [Option.map_some', Nat.zero_add] at hout
    injection hout with hpair
    injection hpair with hnm hgroup
    rw [← hgroup] at ht
    obtain ⟨p, hpsel, hpt⟩ := List.mem_map.mp ht
    rw [List.mem_filter] at hpsel
    obtain ⟨hpsurv, hdec⟩ := hpsel
    rw [List.mem_filter] at hpsurv
    obtain ⟨hpw, hpsum⟩ := hpsurv
    have hsum : 0 < (scoreRow table inp.bundles.length p.1).sum :=
      of_decide_eq_true hpsum
    have hargmax : argmaxFirst (scoreRow table inp.bundles.length p.1)
        = some bIdx := of_decide_eq_true hdec
    obtain ⟨-, hget⟩ := withIdx_mem hpw
    rw [Nat.sub_zero] at hget
    have hlt : p.1 < inp.streamlines.length := by
      by_contra hcon
      push_neg at hcon
      rw [List.get?_eq_none.mpr hcon] at hget
      cases hget
    have hbIdx : bIdx < inp.bundles.length := by
      by_contra hcon
      push_neg at hcon
      rw [List.get?_eq_none.mpr hcon] at hb
      cases hb
    have hpos := scoreRow_argmax_pos hph hget hlt hwf hbIdx hsum hargmax
    have hcell := phase1_cell hph hb hget
    cases hc : (table.getD bIdx []).getD p.1 none with
    | none =>
      exfalso
      rw [scoreRow_getD hbIdx, hc] at hpos
      exact Q.lt_irrefl 0 hpos
    | some cell =>
      obtain ⟨pr, m0, m1⟩ := cell
      rw [hc] at hcell
      obtain ⟨-, -, d0, d1, hd0, hd1, ha0, ha1⟩ := classifyPair_some_inv hcell
      rw [List.get?_map, hr0] at hd0
      rw [List.get?_map, hr1] at hd1
      simp only [Option.map_some'] at hd0 hd1
      injection hd0 with hd0e
      injection hd1 with hd1e
      rw [← hd0e] at ha0
      rw [← hd1e] at ha1
      have hmp : minPair table bIdx p.1 = (m0, m1) := by
        unfold minPair
        rw [hc]
        rfl
      rw [hmp] at hpt
      by_cases hrev : m1 < m0
      · rw [if_pos hrev] at hpt
        subst hpt
        obtain ⟨rc0, rest0, rfl⟩ : ∃ rc rest, r0 = rc :: rest := by
          cases r0 with
          | nil =>
            exfalso
            rw [col0_cdistSq_nil] at ha0
            cases ha0
          | cons rc rest => exact ⟨rc, rest, rfl⟩
        obtain ⟨rc1, rest1, rfl⟩ : ∃ rc rest, r1 = rc :: rest := by
          cases r1 with
          | nil =>
            exfalso
            rw [col0_cdistSq_nil] at ha1
            cases ha1
          | cons rc rest => exact ⟨rc, rest, rfl⟩
        have hrv0 : col0 (cdistSq p.2.reverse (rc0 :: rest0))
            = (col0 (cdistSq p.2 (rc0 :: rest0))).reverse :=
          col0_cdistSq_reverse p.2 (rc0 :: rest0)
        have hrv1 : col0 (cdistSq p.2.reverse (rc1 :: rest1))
            = (col0 (cdistSq p.2 (rc1 :: rest1))).reverse :=
          col0_cdistSq_reverse p.2 (rc1 :: rest1)
        rw [hrv0] at hu0
        rw [hrv1] at hu1
        have hlen0 := col0_cdistSq_length p.2 rc0 rest0
        have hlen1 := col0_cdistSq_length p.2 rc1 rest1
        have hi0 : i0 < p.2.length := by
          have := hu0.1
          rw [List.length_reverse, hlen0] at this
          exact this
        have hi1 : i1 < p.2.length := by
          have := hu1.1
          rw [List.length_reverse, hlen1] at this
          exact this
        have hsm0 := strictMin_reverse hu0
        have hsm1 := strictMin_reverse hu1
        rw [List.reverse_reverse, List.length_reverse] at hsm0 hsm1
        have hm0' : argminFirst (col0 (cdistSq p.2 (rc0 :: rest0)))
            = some (p.2.length - 1 - i0) := by
          have := argminFirst_of_strictMin hsm0
          rwa [hlen0] at this
        have hm1' : argminFirst (col0 (cdistSq p.2 (rc1 :: rest1)))
            = some (p.2.length - 1 - i1) := by
          have := argminFirst_of_strictMin hsm1
          rwa [hlen1] at this
        rw [ha0] at hm0'
        rw [ha1] at hm1'
        injection hm0' with he0
        injection hm1' with he1
        omega
      · rw [if_neg hrev] at hpt
        subst hpt
        have he0 : some m0 = some i0 := ha0.symm.trans hca0
        have he1 : some m1 = some i1 := ha1.symm.trans hca1
        injection he0 with he0
        injection he1 with he1
        omega

/-- Witness for C4 (amended): the run with unique closest approaches at
    nodes 1 and 2 satisfies the invariant. -/
theorem c4_orientation_invariant_witness :
    segmentSls opsSimple inpC4w = .ok [("b", [slArc])] ∧
      IsStrictMinAt (col0 (cdistSq slArc roiA)) 1 ∧
      IsStrictMinAt (col0 (cdistSq slArc roiC)) 2 ∧
      (closestApproachIdx slArc roiA = some 1 ∧
        closestApproachIdx slArc roiC = some 2 ∧ 1 ≤ 2) :=
  ⟨rfl, by decide, by decide,
    c4_orientation_invariant_of_unique_min opsSimple inpC4w 0 "b" [slArc]
      slArc ⟨"b", [roiA, roiC], [], none, onesVol⟩ roiA roiC
      [("b", [slArc])] 1 2 rfl rfl (by decide) rfl rfl rfl (by decide)
      (by decide) (by decide)⟩

/-- Witness for C8: one streamline, one bundle with the all-zero
    probability map and threshold `0`: the fiber group is empty. -/
theorem c8_prob_gate_strict_witness :
    (inpC8.bundles.get? 0
        = some ⟨"b", [roiA, roiB], [], none, zeroVol⟩) ∧
      (∀ i ∈ List.range inpC8.streamlines.length,
        (fiberProbs opsSimple inpC8.streamlines
            ⟨"b", [roiA, roiB], [], none, zeroVol⟩).getD i 0
          ≤ inpC8.probThreshold) ∧
      segmentSls opsSimple inpC8 = .ok [("b", [])] ∧
      [("b", [])].get? 0 = some ("b", ([] : List Streamline)) :=
  ⟨rfl, by decide, rfl,
    c8_prob_gate_strict opsSimple inpC8 0 ⟨"b", [roiA, roiB], [], none, zeroVol⟩
      [("b", [])] rfl (by decide) (by decide) rfl⟩

end AFQSeg
